import Mathlib

/-!
Verification of the sync-kit change-set reconciliation engine.

Shallow embedding of the repository's core modules:
  * `src/utils/paths.ts`   — path safety (`resolveSafePath`), POSIX resolution model
  * `src/core/diff.ts`     — `detectConflicts`, `sortOperationsForApply`
  * `src/core/manifest.ts` — `calculateStats`, `serializeManifest`, `parseManifest`
  * `src/core/git.ts`      — `detectChanges`
  * `src/commands/import.ts` — `applyOperation` and the apply loop of `executeImport`

Filesystems, git status snapshots, archives and the hash collaborator are
modelled as explicit values (association lists / function parameters), mirroring
the collaborator interfaces the code calls into.
-/

namespace SyncKit

/-! ## POSIX path model (node:path `resolve`, as used by `resolveSafePath`) -/

/-- Split a list of characters at `'/'` boundaries. -/
def splitSlash : List Char → List (List Char)
  | [] => [[]]
  | c :: cs =>
    let r := splitSlash cs
    if c = '/' then [] :: r
    else
      match r with
      | [] => [[c]]
      | h :: t => (c :: h) :: t

/-- Path segments of a string (split at `'/'`). -/
def splitPath (s : String) : List String :=
  (splitSlash s.data).map List.asString

/-- Normalization step of POSIX `resolve`: drop empty and `"."` segments,
`".."` pops the previous segment (saturating at the root). -/
def normSegs (segs : List String) : List String :=
  segs.foldl
    (fun acc seg =>
      if seg = "" ∨ seg = "." then acc
      else if seg = ".." then acc.dropLast
      else acc ++ [seg])
    []

/-- Normalize an absolute POSIX path string. -/
def normAbs (s : String) : String :=
  "/" ++ String.intercalate "/" (normSegs (splitPath s))

/-- Character-level string prefix test, the semantics of JS `String.startsWith`. -/
def strStartsWith (s pre : String) : Bool :=
  pre.data.isPrefixOf s.data

/-- Model of node `path.resolve(p)` with an explicit working directory `cwd`
(assumed absolute): an absolute path is normalized as-is, otherwise it is
resolved against `cwd`. -/
def resolve1 (cwd p : String) : String :=
  if strStartsWith p "/" then normAbs p else normAbs (cwd ++ "/" ++ p)

/-- Model of node `path.resolve(base, rel)` with an explicit working
directory `cwd` (assumed absolute). -/
def resolve2 (cwd base rel : String) : String :=
  if strStartsWith rel "/" then normAbs rel
  else if strStartsWith base "/" then normAbs (base ++ "/" ++ rel)
  else normAbs (cwd ++ "/" ++ base ++ "/" ++ rel)

/-- Embedding of `resolveSafePath` (src/utils/paths.ts):
resolves `relativePath` against `basePath` and throws a path-traversal error
unless the resolved path equals the resolved base or extends it past a
separator.  The thrown JS `Error` is modelled as `Except.error` carrying the
message string. -/
def resolveSafePath (cwd basePath relativePath : String) : Except String String :=
  let resolvedBase := resolve1 cwd basePath
  let resolvedFull := resolve2 cwd basePath relativePath
  if !(strStartsWith resolvedFull (resolvedBase ++ "/")) && !(resolvedFull == resolvedBase) then
    .error ("Path traversal detected: \"" ++ relativePath ++ "\" escapes base directory")
  else
    .ok resolvedFull

/-! ## Data model (src/types/index.ts) -/

/-- Operation types for file changes (`OperationType`). -/
inductive OperationType where
  | add
  | modify
  | delete
  | rename
deriving DecidableEq, Repr

/-- Single file operation in the manifest (`FileOperation`).  Optional TS
fields become `Option`; the TS field `from` is spelled `from?` because `from`
is a Lean keyword. -/
structure FileOperation where
  type : OperationType
  path : String
  from? : Option String := none
  size : Option Nat := none
  hash : Option String := none
deriving DecidableEq, Repr

/-- Conflict reasons (`Conflict.reason`). -/
inductive ConflictReason where
  | modified_locally
  | deleted_locally
  | already_exists
deriving DecidableEq, Repr

/-- Conflict information during import (`Conflict`). -/
structure Conflict where
  path : String
  reason : ConflictReason
deriving DecidableEq, Repr

/-- Detected file change with metadata (`DetectedChange`): same shape as
`FileOperation` but `size` always populated. -/
structure DetectedChange where
  type : OperationType
  path : String
  from? : Option String := none
  size : Nat
  hash : Option String := none
deriving DecidableEq, Repr

/-- Source repository information (`SourceInfo`). -/
structure SourceInfo where
  repo : String
  branch : String
  commit : String
  dirty : Bool
deriving DecidableEq, Repr

/-- Statistics about the export (`ExportStats`). -/
structure ExportStats where
  added : Nat
  modified : Nat
  deleted : Nat
  renamed : Nat
  totalSize : Nat
deriving DecidableEq, Repr

/-- Export mode. -/
inductive Mode where
  | changes
  | full
deriving DecidableEq, Repr

/-- Manifest file structure (`Manifest`). -/
structure Manifest where
  version : String
  created : String
  source : SourceInfo
  mode : Mode
  message : Option String := none
  stats : ExportStats
  operations : List FileOperation
deriving DecidableEq, Repr

/-- Git status snapshot, the collaborator value returned by `getStatus()`
(simple-git `StatusResult`): classified path lists plus rename pairs
`(from, to)`. -/
structure StatusResult where
  renamed : List (String × String) := []
  created : List String := []
  modified : List String := []
  staged : List String := []
  deleted : List String := []
  not_added : List String := []
deriving Repr

/-! ## Collaborator models: filesystem, hashing, archive -/

/-- The destination filesystem, modelled as an association list from full
path to file content (first binding wins). -/
abbrev FS := List (String × String)

/-- Embedding of `fileExists` (src/utils/fs.ts): existence in the modelled
filesystem. -/
def fileExists (fs : FS) (p : String) : Bool :=
  (List.lookup p fs).isSome

/-- The archive payload store, modelled as an association list from original
(pre-archive-mapping) path to content. -/
abbrev Archive := List (String × String)

/-- Embedding of `getFileFromArchive` (src/core/archive.ts): random-access
payload lookup, `none` when the entry is absent. -/
def getFileFromArchive (zip : Archive) (p : String) : Option String :=
  List.lookup p zip

/-- Write a file: the JS `writeFile` on the modelled filesystem. -/
def FS.writeEntry (fs : FS) (p content : String) : FS :=
  (p, content) :: fs.filter (fun e => e.1 ≠ p)

/-- Remove a file: the JS `remove` on the modelled filesystem. -/
def FS.removeEntry (fs : FS) (p : String) : FS :=
  fs.filter (fun e => e.1 ≠ p)

/-- Embedding of `normalizePath` (src/utils/paths.ts): replace every
backslash with a forward slash (`filePath.replace(/\\/g, '/')`). -/
def normalizePath (s : String) : String :=
  List.asString (s.data.map (fun c => if c = '\\' then '/' else c))

/-- JS truthiness of an optional string (`if (op.from)`, `op.hash && …`):
false for `undefined` and for the empty string. -/
def strTruthy : Option String → Bool
  | none => false
  | some s => !(s == "")

/-! ## Conflict Detector (src/core/diff.ts, `detectConflicts`) -/

/-- The `modifiedFiles` set built once at the top of `detectConflicts`:
normalized union of `status.modified`, `status.staged`, `status.not_added`.
Modelled as a list used only through membership. -/
def modifiedSet (status : StatusResult) : List String :=
  status.modified.map normalizePath ++ status.staged.map normalizePath
    ++ status.not_added.map normalizePath

/-- Per-operation body of the `detectConflicts` loop.  `hashFn` is the
content-fingerprint collaborator (`hashFile` hashes the file's content);
`localExists`/content lookup mirror `fileExists(localPath)` /
`hashFile(localPath)`. -/
def conflictsForOp (hashFn : String → String) (fs : FS) (modifiedFiles : List String)
    (targetDir : String) (op : FileOperation) : List Conflict :=
  let localPath := targetDir ++ "/" ++ op.path
  match op.type with
  | .add =>
    -- conflict iff the file exists locally, the op carries a (truthy) hash,
    -- and the local content's fingerprint differs from the declared one
    match List.lookup localPath fs with
    | some content =>
      if strTruthy op.hash && !(some (hashFn content) == op.hash) then
        [⟨op.path, .already_exists⟩]
      else []
    | none => []
  | .modify =>
    if fileExists fs localPath && modifiedFiles.contains (normalizePath op.path) then
      [⟨op.path, .modified_locally⟩]
    else []
  | .delete =>
    if !fileExists fs localPath then [⟨op.path, .deleted_locally⟩] else []
  | .rename =>
    if strTruthy op.from? then
      let fromP := op.from?.getD ""
      (if !fileExists fs (targetDir ++ "/" ++ fromP) then
        [⟨fromP, .deleted_locally⟩] else [])
        ++ (if fileExists fs localPath then [⟨op.path, .already_exists⟩] else [])
    else []

/-- Embedding of `detectConflicts` (src/core/diff.ts): fetches the status
snapshot once, then accumulates per-operation conflicts in order. -/
def detectConflicts (hashFn : String → String) (fs : FS) (status : StatusResult)
    (targetDir : String) (operations : List FileOperation) : List Conflict :=
  let modifiedFiles := modifiedSet status
  operations.flatMap (conflictsForOp hashFn fs modifiedFiles targetDir)

/-! ## Apply ordering (src/core/diff.ts, `sortOperationsForApply`) -/

/-- The fixed type priority `typeOrder`. -/
def typeOrder : OperationType → Nat
  | .delete => 0
  | .rename => 1
  | .modify => 2
  | .add => 3

/-- Stable insertion of one operation into an already-sorted list: the new
element goes after every element of priority ≤ its own, modelling the
stability guarantee of JS `Array.prototype.sort` (ES2019). -/
def insertByOrder (x : FileOperation) : List FileOperation → List FileOperation
  | [] => [x]
  | y :: ys =>
    if typeOrder y.type ≤ typeOrder x.type then y :: insertByOrder x ys
    else x :: y :: ys

/-- Embedding of `sortOperationsForApply`: a stable sort of a copy of the
input by `typeOrder` (insertion sort, which is the stable sort by this
comparator). -/
def sortOperationsForApply (operations : List FileOperation) : List FileOperation :=
  operations.foldl (fun acc x => insertByOrder x acc) []

/-! ## Manifest Builder (src/core/manifest.ts) -/

/-- Embedding of `calculateStats`: one pass over the changes, incrementing the
counter matching each change's type and adding `size` to the total for every
type except delete. -/
def calculateStats (changes : List DetectedChange) : ExportStats :=
  changes.foldl
    (fun s change =>
      match change.type with
      | .add => { s with added := s.added + 1, totalSize := s.totalSize + change.size }
      | .modify => { s with modified := s.modified + 1, totalSize := s.totalSize + change.size }
      | .delete => { s with deleted := s.deleted + 1 }
      | .rename => { s with renamed := s.renamed + 1, totalSize := s.totalSize + change.size })
    ⟨0, 0, 0, 0, 0⟩

/-- JSON values, the data produced by `JSON.parse` / consumed by
`JSON.stringify`.  Numbers are restricted to the naturals the manifest schema
uses (sizes and counters). -/
inductive Json where
  | str : String → Json
  | num : Nat → Json
  | bool : Bool → Json
  | arr : List Json → Json
  | obj : List (String × Json) → Json

/-- Wire name of an operation type. -/
def typeName : OperationType → String
  | .add => "add"
  | .modify => "modify"
  | .delete => "delete"
  | .rename => "rename"

/-- Inverse of `typeName`, used when reading a parsed manifest back as typed
data. -/
def parseOpType : String → Option OperationType
  | "add" => some .add
  | "modify" => some .modify
  | "delete" => some .delete
  | "rename" => some .rename
  | _ => none

/-- Wire name of the export mode. -/
def modeName : Mode → String
  | .changes => "changes"
  | .full => "full"

/-- Inverse of `modeName`. -/
def parseMode : String → Option Mode
  | "changes" => some .changes
  | "full" => some .full
  | _ => none

/-- Encoding by `JSON.stringify` of one `FileOperation`: fields with value `undefined`
(modelled `none`) are omitted from the serialized object. -/
def encodeOp (op : FileOperation) : Json :=
  .obj ([("type", .str (typeName op.type)), ("path", .str op.path)]
    ++ (match op.from? with | some f => [("from", Json.str f)] | none => [])
    ++ (match op.size with | some s => [("size", Json.num s)] | none => [])
    ++ (match op.hash with | some h => [("hash", Json.str h)] | none => []))

/-- Read one parsed operation object back as a typed `FileOperation`; this is
the typed-embedding counterpart of the untyped `data as Manifest` cast, so a
shape the cast would leave ill-typed yields `none`. -/
def decodeOp (j : Json) : Option FileOperation :=
  match j with
  | .obj fields =>
    match List.lookup "type" fields, List.lookup "path" fields with
    | some (.str t), some (.str p) =>
      match parseOpType t with
      | some ty =>
        some
          { type := ty
            path := p
            from? := match List.lookup "from" fields with | some (.str f) => some f | _ => none
            size := match List.lookup "size" fields with | some (.num n) => some n | _ => none
            hash := match List.lookup "hash" fields with | some (.str h) => some h | _ => none }
      | none => none
    | _, _ => none
  | _ => none

/-- Decode a list of operation objects. -/
def decodeOps : List Json → Option (List FileOperation)
  | [] => some []
  | j :: t =>
    match decodeOp j, decodeOps t with
    | some o, some os => some (o :: os)
    | _, _ => none

/-- Embedding of `serializeManifest` (`JSON.stringify(manifest, null, 2)`):
the structural JSON encoding of the manifest, optional `message` omitted when
`undefined`.  The textual layer of `JSON.stringify`/`JSON.parse` is the
language runtime, modelled as the identity on `Json` values. -/
def serializeManifest (manifest : Manifest) : Json :=
  .obj ([("version", .str manifest.version), ("created", .str manifest.created),
      ("source", .obj [("repo", .str manifest.source.repo),
        ("branch", .str manifest.source.branch),
        ("commit", .str manifest.source.commit),
        ("dirty", .bool manifest.source.dirty)]),
      ("mode", .str (modeName manifest.mode))]
    ++ (match manifest.message with | some msg => [("message", Json.str msg)] | none => [])
    ++ [("stats", .obj [("added", .num manifest.stats.added),
        ("modified", .num manifest.stats.modified),
        ("deleted", .num manifest.stats.deleted),
        ("renamed", .num manifest.stats.renamed),
        ("totalSize", .num manifest.stats.totalSize)]),
      ("operations", .arr (manifest.operations.map encodeOp))])

/-- JS truthiness of a looked-up JSON field (`!data.version`): absent fields,
empty strings, zero and `false` are falsy; objects and arrays are always
truthy. -/
def jsonTruthy : Option Json → Bool
  | none => false
  | some (.str s) => !(s == "")
  | some (.num n) => !(n == 0)
  | some (.bool b) => b
  | some (.arr _) => true
  | some (.obj _) => true

/-- Embedding of `parseManifest`: throws `Invalid manifest format` when
`version` is falsy or `operations` is missing / not an array, then returns
the parsed data as a `Manifest` (`data as Manifest`).  In the typed embedding
the cast is the field-by-field read-back; a shape the cast would leave
ill-typed surfaces as the `malformed` error instead of an ill-typed value. -/
def parseManifest (data : Json) : Except String Manifest :=
  match data with
  | .obj fields =>
    if !jsonTruthy (List.lookup "version" fields)
        || !jsonTruthy (List.lookup "operations" fields)
        || !(match List.lookup "operations" fields with | some (.arr _) => true | _ => false) then
      .error "Invalid manifest format"
    else
      match List.lookup "version" fields, List.lookup "created" fields,
          List.lookup "source" fields, List.lookup "mode" fields,
          List.lookup "stats" fields, List.lookup "operations" fields with
      | some (.str version), some (.str created), some (.obj src), some (.str mode),
          some (.obj st), some (.arr opsJson) =>
        match List.lookup "repo" src, List.lookup "branch" src, List.lookup "commit" src,
            List.lookup "dirty" src, parseMode mode,
            List.lookup "added" st, List.lookup "modified" st, List.lookup "deleted" st,
            List.lookup "renamed" st, List.lookup "totalSize" st, decodeOps opsJson with
        | some (.str repo), some (.str branch), some (.str commit), some (.bool dirty),
            some m, some (.num a), some (.num mo), some (.num d), some (.num r),
            some (.num ts), some ops =>
          .ok
            { version := version
              created := created
              source := ⟨repo, branch, commit, dirty⟩
              mode := m
              message := match List.lookup "message" fields with | some (.str s) => some s | _ => none
              stats := ⟨a, mo, d, r, ts⟩
              operations := ops }
        | _, _, _, _, _, _, _, _, _, _, _ => .error "malformed manifest object"
      | _, _, _, _, _, _ => .error "malformed manifest object"
  | _ => .error "Invalid manifest format"

/-! ## Apply Engine (src/commands/import.ts) -/

/-- Embedding of `applyOperation`: apply one operation to the modelled
filesystem, returning the new filesystem or the thrown error message.
add/modify fetch the payload (throwing `File not found in archive` when
absent) and write it; delete removes the target when present; rename is
content-authoritative when the archive carries payload for the destination
path, otherwise a plain path rename when the `from` file exists. -/
def applyOperation (zip : Archive) (fs : FS) (targetDir : String)
    (op : FileOperation) : Except String FS :=
  let targetPath := targetDir ++ "/" ++ op.path
  match op.type with
  | .add | .modify =>
    match getFileFromArchive zip op.path with
    | none => .error ("File not found in archive: " ++ op.path)
    | some content => .ok (FS.writeEntry fs targetPath content)
  | .delete =>
    if fileExists fs targetPath then .ok (FS.removeEntry fs targetPath) else .ok fs
  | .rename =>
    if strTruthy op.from? then
      let fromPath := targetDir ++ "/" ++ op.from?.getD ""
      match getFileFromArchive zip op.path with
      | some content =>
        let fs' := if fileExists fs fromPath then FS.removeEntry fs fromPath else fs
        .ok (FS.writeEntry fs' targetPath content)
      | none =>
        match List.lookup fromPath fs with
        | some oldContent =>
          .ok (FS.writeEntry (FS.removeEntry fs fromPath) targetPath oldContent)
        | none => .ok fs
    else .ok fs

/-- The apply loop of `executeImport`: each operation is attempted
independently; successes are tallied, failures are collected in order with
the triggering error, and execution always continues to the next
operation.  Returns the final filesystem, the success count (`applied`) and
the failure list (`errors`). -/
def applyLoop (zip : Archive) (targetDir : String) (fs : FS) :
    List FileOperation → FS × Nat × List (FileOperation × String)
  | [] => (fs, 0, [])
  | op :: rest =>
    match applyOperation zip fs targetDir op with
    | .ok fs' =>
      let r := applyLoop zip targetDir fs' rest
      (r.1, r.2.1 + 1, r.2.2)
    | .error e =>
      let r := applyLoop zip targetDir fs rest
      (r.1, r.2.1, (op, e) :: r.2.2)

/-- The apply phase of `executeImport`: sort the (post-resolution) operations
with `sortOperationsForApply`, then run the apply loop. -/
def executeImportApply (zip : Archive) (targetDir : String) (fs : FS)
    (operations : List FileOperation) : FS × Nat × List (FileOperation × String) :=
  applyLoop zip targetDir fs (sortOperationsForApply operations)

/-! ## Change Detector (src/core/git.ts, `detectChanges`) -/

/-- State threaded through `detectChanges`: the `processedPaths` set and the
`changes` accumulator. -/
abbrev DetectState := List String × List DetectedChange

/-- Embedding of the inner helper `addChange` of `detectChanges`: skip
already-claimed paths and submodules; claim the path; for non-delete
operations emit a change only when the path is currently a regular file
(with size and fingerprint of the current content), for delete emit with
size 0 and no hash. -/
def addChange (submodules : List String) (fs : FS) (hashFn : String → String)
    (repoRoot : String) (st : DetectState) (ty : OperationType) (path : String)
    (from? : Option String) : DetectState :=
  if st.1.contains path then st
  else if submodules.contains path then st
  else
    let processed := path :: st.1
    let fullPath := repoRoot ++ "/" ++ path
    if ty ≠ .delete then
      match List.lookup fullPath fs with
      | none => (processed, st.2)
      | some content =>
        (processed, st.2 ++ [⟨ty, path, from?, content.length, some (hashFn content)⟩])
    else
      (processed, st.2 ++ [⟨ty, path, from?, 0, none⟩])

/-- Embedding of `detectChanges` (src/core/git.ts): process renames, staged
creations, modifications (modified ∪ staged), deletions, then untracked
files, with dedup-by-first-write semantics.  `submodules` is the
`getSubmodules()` collaborator result, `fs` the working tree and `hashFn`
the fingerprint collaborator. -/
def detectChanges (status : StatusResult) (submodules : List String) (fs : FS)
    (hashFn : String → String) (repoRoot : String) : List DetectedChange :=
  let s0 : DetectState := ([], [])
  let s1 := status.renamed.foldl
    (fun st pr => addChange submodules fs hashFn repoRoot st .rename
      (normalizePath pr.2) (some (normalizePath pr.1))) s0
  let s2 := status.created.foldl
    (fun st f => addChange submodules fs hashFn repoRoot st .add (normalizePath f) none) s1
  let s3 := (status.modified ++ status.staged).foldl
    (fun st f =>
      let p := normalizePath f
      if st.1.contains p then st
      else addChange submodules fs hashFn repoRoot st .modify p none) s2
  let s4 := status.deleted.foldl
    (fun st f => addChange submodules fs hashFn repoRoot st .delete (normalizePath f) none) s3
  let s5 := status.not_added.foldl
    (fun st f =>
      let p := normalizePath f
      if st.1.contains p then st
      else addChange submodules fs hashFn repoRoot st .add p none) s4
  s5.2

/-! ## Theorems -/

/-- C1, counterexample: the claim "for every base, resolveSafePath(base,
\"../../etc/passwd\") fails with PathTraversal" is false at base `/etc`:
the resolution `/etc/passwd` has `/etc` + separator as a prefix, so the
call succeeds and returns `/etc/passwd`. -/
theorem resolveSafePath_etc_base_no_error :
    resolveSafePath "/" "/etc" "../../etc/passwd" = .ok "/etc/passwd" := rfl

/-- C1, amended: `resolveSafePath(base, relative)` returns the resolution of
`relative` against `base` when that resolved path equals the resolved base or
has the resolved base followed by the separator as a prefix, and fails with a
PathTraversal error otherwise; consequently `resolveSafePath(base,
"../../etc/passwd")` fails exactly for the bases where that resolution
escapes — e.g. it fails for base `/home/user/project` — rather than for every
base. -/
theorem resolveSafePath_characterization :
    (∀ cwd base rel : String,
      resolveSafePath cwd base rel =
        if strStartsWith (resolve2 cwd base rel) (resolve1 cwd base ++ "/")
            || resolve2 cwd base rel == resolve1 cwd base
        then .ok (resolve2 cwd base rel)
        else .error ("Path traversal detected: \"" ++ rel ++ "\" escapes base directory"))
    ∧ resolveSafePath "/" "/home/user/project" "../../etc/passwd" =
        .error "Path traversal detected: \"../../etc/passwd\" escapes base directory" := by
  constructor
  · intro cwd base rel
    simp only [resolveSafePath]
    cases hA : strStartsWith (resolve2 cwd base rel) (resolve1 cwd base ++ "/") <;>
      cases hB : resolve2 cwd base rel == resolve1 cwd base <;>
        simp [hA, hB]
  · rfl

/-- C5: a `delete` operation produces exactly one `deleted_locally` conflict
when its target path does not exist at the destination, and zero conflicts
when it exists. -/
theorem detectConflicts_delete_iff
    (hashFn : String → String) (fs : FS) (status : StatusResult) (dir p : String)
    (f : Option String) (sz : Option Nat) (h : Option String) :
    detectConflicts hashFn fs status dir [⟨.delete, p, f, sz, h⟩] =
      if fileExists fs (dir ++ "/" ++ p) then []
      else [⟨p, .deleted_locally⟩] := by
  cases hx : fileExists fs (dir ++ "/" ++ p) <;>
    simp [detectConflicts, conflictsForOp, hx]

/-- C4: an `add` operation carrying a declared (truthy) fingerprint produces an
`already_exists` conflict iff the destination path exists and the fingerprint
of its current content differs from the declared one; in particular an add
whose declared hash equals the destination's content hash produces zero
conflicts. -/
theorem detectConflicts_add_iff
    (hashFn : String → String) (fs : FS) (status : StatusResult) (dir p : String)
    (f : Option String) (sz : Option Nat) (h : String) (hne : h ≠ "") :
    detectConflicts hashFn fs status dir [⟨.add, p, f, sz, some h⟩] =
      match List.lookup (dir ++ "/" ++ p) fs with
      | some content => if hashFn content ≠ h then [⟨p, .already_exists⟩] else []
      | none => [] := by
  cases hx : List.lookup (dir ++ "/" ++ p) fs with
  | none => simp [detectConflicts, conflictsForOp, hx]
  | some content =>
    cases hc : hashFn content == h <;>
      simp_all [detectConflicts, conflictsForOp, strTruthy, beq_iff_eq]

/-- C4 witness: an add whose declared hash equals the destination's existing
content hash produces zero conflicts, at a concrete input. -/
theorem detectConflicts_add_iff_witness :
    "sha256:x" ≠ "" ∧
      detectConflicts (fun s => "sha256:" ++ s) [("/t/a", "x")] {} "/t"
          [⟨.add, "a", none, some 1, some "sha256:x"⟩] =
        match List.lookup ("/t" ++ "/" ++ "a") [("/t/a", "x")] with
        | some content =>
          if ("sha256:" ++ content) ≠ "sha256:x" then [⟨"a", .already_exists⟩] else []
        | none => [] :=
  ⟨by decide,
    detectConflicts_add_iff (fun s => "sha256:" ++ s) [("/t/a", "x")] {} "/t" "a"
      none (some 1) "sha256:x" (by decide)⟩

/-- C9: operations lacking expected fields are treated as inapplicable, not
crashes: a rename without `from` and an add without `hash` yield no conflicts
(and no exception — the embedding is total by construction, mirroring the
absence of throws in `detectConflicts`), and applying a rename without `from`
returns successfully with the filesystem unchanged. -/
theorem missing_fields_inapplicable
    (hashFn : String → String) (fs : FS) (status : StatusResult) (dir : String)
    (zip : Archive) (p p2 : String) (fr : Option String) (sz sz2 : Option Nat)
    (hs : Option String) :
    detectConflicts hashFn fs status dir [⟨.rename, p, none, sz, hs⟩] = []
    ∧ detectConflicts hashFn fs status dir [⟨.add, p2, fr, sz2, none⟩] = []
    ∧ applyOperation zip fs dir ⟨.rename, p, none, sz, hs⟩ = .ok fs := by
  refine ⟨rfl, ?_, rfl⟩
  cases hx : List.lookup (dir ++ "/" ++ p2) fs <;>
    simp [detectConflicts, conflictsForOp, hx, strTruthy]

/-- Count of changes of one type. -/
def countType (ty : OperationType) (changes : List DetectedChange) : Nat :=
  (changes.filter (fun c => c.type = ty)).length

/-- Total size over non-delete changes. -/
def sizeSum (changes : List DetectedChange) : Nat :=
  ((changes.filter (fun c => c.type ≠ .delete)).map (fun c => c.size)).sum

/-- Field-by-field characterization of the `calculateStats` fold. -/
theorem calculateStats_foldl (l : List DetectedChange) (s : ExportStats) :
    List.foldl
      (fun s change =>
        match change.type with
        | .add => { s with added := s.added + 1, totalSize := s.totalSize + change.size }
        | .modify => { s with modified := s.modified + 1, totalSize := s.totalSize + change.size }
        | .delete => { s with deleted := s.deleted + 1 }
        | .rename => { s with renamed := s.renamed + 1, totalSize := s.totalSize + change.size })
      s l =
    ⟨s.added + countType .add l, s.modified + countType .modify l,
      s.deleted + countType .delete l, s.renamed + countType .rename l,
      s.totalSize + sizeSum l⟩ := by
  induction l generalizing s with
  | nil => simp [countType, sizeSum]
  | cons c t ih =>
    cases hty : c.type <;>
      simp_all [countType, sizeSum, List.filter_cons, hty, ExportStats.mk.injEq] <;>
        omega

/-- The per-type counts partition the non-delete changes. -/
theorem counts_partition (l : List DetectedChange) :
    countType .add l + countType .modify l + countType .rename l =
      (l.filter (fun c => c.type ≠ .delete)).length := by
  induction l with
  | nil => simp [countType]
  | cons c t ih =>
    cases hty : c.type <;> simp_all [countType, List.filter_cons, hty] <;> omega

/-- C7: for every change list, `added + modified + renamed` equals the number
of non-delete changes, `deleted` equals the number of delete changes, and
`totalSize` is the sum of `size` over the non-delete changes.  The embedding
is a pure function, matching "deterministic, no side effects". -/
theorem calculateStats_consistency (changes : List DetectedChange) :
    (calculateStats changes).added + (calculateStats changes).modified
        + (calculateStats changes).renamed
      = (changes.filter (fun c => c.type ≠ .delete)).length
    ∧ (calculateStats changes).deleted
      = (changes.filter (fun c => c.type = .delete)).length
    ∧ (calculateStats changes).totalSize
      = ((changes.filter (fun c => c.type ≠ .delete)).map (fun c => c.size)).sum := by
  have hc := calculateStats_foldl changes ⟨0, 0, 0, 0, 0⟩
  have : calculateStats changes =
      ⟨countType .add changes, countType .modify changes, countType .delete changes,
        countType .rename changes, sizeSum changes⟩ := by
    simpa [calculateStats] using hc
  rw [this]
  refine ⟨?_, rfl, rfl⟩
  simpa using counts_partition changes

/-! ### Apply ordering: stable-sort characterization -/

/-- Operations of priority `i`, in input order. -/
def bucket (i : Nat) (ops : List FileOperation) : List FileOperation :=
  ops.filter (fun op => typeOrder op.type == i)

theorem mem_bucket {i : Nat} {ops : List FileOperation} {op : FileOperation}
    (h : op ∈ bucket i ops) : typeOrder op.type = i := by
  simp only [bucket, List.mem_filter, beq_iff_eq] at h
  exact h.2

/-- The stable sort, characterized: priority buckets concatenated in order,
each bucket preserving input order. -/
def sortSpec (ops : List FileOperation) : List FileOperation :=
  bucket 0 ops ++ (bucket 1 ops ++ (bucket 2 ops ++ bucket 3 ops))

theorem insertByOrder_top (x : FileOperation) (l2 : List FileOperation)
    (h2 : ∀ y ∈ l2, typeOrder x.type < typeOrder y.type) :
    insertByOrder x l2 = x :: l2 := by
  cases l2 with
  | nil => rfl
  | cons y ys =>
    have hy := h2 y (by simp)
    simp [insertByOrder, Nat.not_le.mpr hy]

theorem insertByOrder_append (x : FileOperation) (l1 l2 : List FileOperation)
    (h1 : ∀ y ∈ l1, typeOrder y.type ≤ typeOrder x.type)
    (h2 : ∀ y ∈ l2, typeOrder x.type < typeOrder y.type) :
    insertByOrder x (l1 ++ l2) = l1 ++ x :: l2 := by
  induction l1 with
  | nil => simpa using insertByOrder_top x l2 h2
  | cons a t ih =>
    have ha := h1 a (by simp)
    simp [insertByOrder, ha, ih (fun y hy => h1 y (by simp [hy]))]

theorem insertByOrder_sortSpec (x : FileOperation) (l : List FileOperation) :
    insertByOrder x (sortSpec l) = sortSpec (l ++ [x]) := by
  have hb : ∀ i, bucket i (l ++ [x]) = bucket i l ++ bucket i [x] := by
    intro i; simp [bucket, List.filter_append]
  cases hty : x.type
  case delete =>
    have e : insertByOrder x (sortSpec l) =
        (bucket 0 l ++ [x]) ++ (bucket 1 l ++ (bucket 2 l ++ bucket 3 l)) := by
      have h := insertByOrder_append x (bucket 0 l)
        (bucket 1 l ++ (bucket 2 l ++ bucket 3 l))
        (fun y hy => by rw [mem_bucket hy, hty]; decide)
        (fun y hy => by
          simp only [List.mem_append] at hy
          rcases hy with hy | hy | hy <;> rw [mem_bucket hy, hty] <;> decide)
      simpa [sortSpec, List.append_assoc] using h
    rw [e]
    simp [sortSpec, hb, bucket, hty, typeOrder, List.filter, List.append_assoc]
  case rename =>
    have e : insertByOrder x (sortSpec l) =
        (bucket 0 l ++ bucket 1 l) ++ (x :: (bucket 2 l ++ bucket 3 l)) := by
      have h := insertByOrder_append x (bucket 0 l ++ bucket 1 l)
        (bucket 2 l ++ bucket 3 l)
        (fun y hy => by
          simp only [List.mem_append] at hy
          rcases hy with hy | hy <;> rw [mem_bucket hy, hty] <;> decide)
        (fun y hy => by
          simp only [List.mem_append] at hy
          rcases hy with hy | hy <;> rw [mem_bucket hy, hty] <;> decide)
      simpa [sortSpec, List.append_assoc] using h
    rw [e]
    simp [sortSpec, hb, bucket, hty, typeOrder, List.filter, List.append_assoc]
  case modify =>
    have e : insertByOrder x (sortSpec l) =
        (bucket 0 l ++ (bucket 1 l ++ bucket 2 l)) ++ (x :: bucket 3 l) := by
      have h := insertByOrder_append x (bucket 0 l ++ (bucket 1 l ++ bucket 2 l))
        (bucket 3 l)
        (fun y hy => by
          simp only [List.mem_append] at hy
          rcases hy with hy | hy | hy <;> rw [mem_bucket hy, hty] <;> decide)
        (fun y hy => by rw [mem_bucket hy, hty]; decide)
      simpa [sortSpec, List.append_assoc] using h
    rw [e]
    simp [sortSpec, hb, bucket, hty, typeOrder, List.filter, List.append_assoc]
  case add =>
    have e : insertByOrder x (sortSpec l) =
        (bucket 0 l ++ (bucket 1 l ++ (bucket 2 l ++ bucket 3 l))) ++ [x] := by
      have h := insertByOrder_append x
        (bucket 0 l ++ (bucket 1 l ++ (bucket 2 l ++ bucket 3 l))) []
        (fun y hy => by
          simp only [List.mem_append] at hy
          rcases hy with hy | hy | hy | hy <;> rw [mem_bucket hy, hty] <;> decide)
        (fun y hy => by simp at hy)
      simpa [sortSpec, List.append_assoc] using h
    rw [e]
    simp [sortSpec, hb, bucket, hty, typeOrder, List.filter, List.append_assoc]

theorem foldl_insert_sortSpec (t : List FileOperation) :
    ∀ done : List FileOperation,
      List.foldl (fun acc x => insertByOrder x acc) (sortSpec done) t =
        sortSpec (done ++ t) := by
  induction t with
  | nil => intro done; simp
  | cons x xs ih =>
    intro done
    have : List.foldl (fun acc x => insertByOrder x acc) (sortSpec done) (x :: xs) =
        List.foldl (fun acc x => insertByOrder x acc) (sortSpec (done ++ [x])) xs := by
      simp [List.foldl, insertByOrder_sortSpec]
    rw [this, ih (done ++ [x])]
    simp

/-- Equality of `sortOperationsForApply` with the bucket concatenation (helper
shared by the ordering, permutation and partial-failure theorems). -/
theorem sort_eq_buckets (ops : List FileOperation) :
    sortOperationsForApply ops = sortSpec ops := by
  have h := foldl_insert_sortSpec ops []
  simpa [sortOperationsForApply, sortSpec, bucket] using h

/-- The bucket concatenation is a permutation of the input (helper). -/
theorem sortSpec_perm_self (ops : List FileOperation) : (sortSpec ops).Perm ops := by
  induction ops with
  | nil => simp [sortSpec, bucket]
  | cons x t ih =>
    cases hty : x.type
    case delete =>
      have e : sortSpec (x :: t) = x :: sortSpec t := by
        simp [sortSpec, bucket, List.filter_cons, hty, typeOrder]
      rw [e]; exact ih.cons x
    case rename =>
      have e : sortSpec (x :: t) =
          bucket 0 t ++ x :: (bucket 1 t ++ (bucket 2 t ++ bucket 3 t)) := by
        simp [sortSpec, bucket, List.filter_cons, hty, typeOrder]
      rw [e]; exact List.perm_middle.trans (ih.cons x)
    case modify =>
      have e : sortSpec (x :: t) =
          (bucket 0 t ++ bucket 1 t) ++ x :: (bucket 2 t ++ bucket 3 t) := by
        simp [sortSpec, bucket, List.filter_cons, hty, typeOrder, List.append_assoc]
      rw [e]
      refine List.perm_middle.trans ?_
      have : (bucket 0 t ++ bucket 1 t) ++ (bucket 2 t ++ bucket 3 t) = sortSpec t := by
        simp [sortSpec, List.append_assoc]
      rw [this]; exact ih.cons x
    case add =>
      have e : sortSpec (x :: t) =
          (bucket 0 t ++ (bucket 1 t ++ bucket 2 t)) ++ x :: bucket 3 t := by
        simp [sortSpec, bucket, List.filter_cons, hty, typeOrder, List.append_assoc]
      rw [e]
      refine List.perm_middle.trans ?_
      have : (bucket 0 t ++ (bucket 1 t ++ bucket 2 t)) ++ bucket 3 t = sortSpec t := by
        simp [sortSpec, List.append_assoc]
      rw [this]; exact ih.cons x

/-- Element of an append at an index past the left part lies in the right
part. -/
theorem get_append_mem_right {α : Type} (l1 l2 : List α) :
    ∀ (i : Nat) (h : i < (l1 ++ l2).length), l1.length ≤ i →
      (l1 ++ l2).get ⟨i, h⟩ ∈ l2 := by
  induction l1 with
  | nil => intro i h _; exact List.get_mem _ _ _
  | cons a t ih =>
    intro i h hle
    cases i with
    | zero => simp at hle
    | succ n =>
      have h' : n < (t ++ l2).length := by simp at h ⊢; omega
      have hm := ih n h' (by simp at hle; omega)
      simpa using hm

/-- Position in an append: either in the left part (index within it) or in
the right part (index past it). -/
theorem get_append_cases {α : Type} (l1 l2 : List α) (i : Nat)
    (h : i < (l1 ++ l2).length) :
    (i < l1.length ∧ (l1 ++ l2).get ⟨i, h⟩ ∈ l1)
    ∨ (l1.length ≤ i ∧ (l1 ++ l2).get ⟨i, h⟩ ∈ l2) := by
  by_cases hi : i < l1.length
  · left
    refine ⟨hi, ?_⟩
    rw [List.get_append i hi]
    exact List.get_mem l1 _ _
  · right
    have hle : l1.length ≤ i := Nat.le_of_not_lt hi
    exact ⟨hle, get_append_mem_right l1 l2 i h hle⟩

/-- C2: `sortOperationsForApply` orders operations by the fixed type priority
delete (0), rename (1), modify (2), add (3) with ties in input order — it
equals the concatenation of the priority buckets, each preserving input
order — and consequently any delete targeting a path `P` precedes any
add/rename targeting `P` in the sorted output. -/
theorem sortOperationsForApply_ordering (ops : List FileOperation) :
    sortOperationsForApply ops =
      bucket 0 ops ++ (bucket 1 ops ++ (bucket 2 ops ++ bucket 3 ops))
    ∧ ∀ (P : String) (i j : Nat) (hi : i < (sortOperationsForApply ops).length)
        (hj : j < (sortOperationsForApply ops).length),
        ((sortOperationsForApply ops).get ⟨i, hi⟩).type = .delete →
        ((sortOperationsForApply ops).get ⟨i, hi⟩).path = P →
        (((sortOperationsForApply ops).get ⟨j, hj⟩).type = .add
          ∨ ((sortOperationsForApply ops).get ⟨j, hj⟩).type = .rename) →
        ((sortOperationsForApply ops).get ⟨j, hj⟩).path = P →
        i < j := by
  refine ⟨sort_eq_buckets ops, ?_⟩
  intro P i j
  have hsorted : sortOperationsForApply ops =
      bucket 0 ops ++ (bucket 1 ops ++ (bucket 2 ops ++ bucket 3 ops)) :=
    sort_eq_buckets ops
  rw [hsorted]
  intro hi hj hdel _ haddren _
  have hiLt : i < (bucket 0 ops).length := by
    rcases get_append_cases (bucket 0 ops)
        (bucket 1 ops ++ (bucket 2 ops ++ bucket 3 ops)) i hi with
      ⟨hlt, _⟩ | ⟨_, hmem⟩
    · exact hlt
    · exfalso
      simp only [List.mem_append] at hmem
      rcases hmem with hm | hm | hm <;> have hmb := mem_bucket hm <;>
        rw [hdel] at hmb <;> simp [typeOrder] at hmb
  have hjGe : (bucket 0 ops).length ≤ j := by
    rcases get_append_cases (bucket 0 ops)
        (bucket 1 ops ++ (bucket 2 ops ++ bucket 3 ops)) j hj with
      ⟨_, hmem⟩ | ⟨hge, _⟩
    · exfalso
      have h0 := mem_bucket hmem
      rcases haddren with hA | hA <;> rw [hA] at h0 <;> simp [typeOrder] at h0
    · exact hge
  omega

/-- C2 witness: a concrete list with an add before a delete on the same path;
after sorting, the delete sits at index 0 and the add at index 1. -/
theorem sortOperationsForApply_ordering_witness :
    ((sortOperationsForApply
        [{ type := .add, path := "p", size := some 1, hash := some "h" },
          { type := .delete, path := "p" }]).get ⟨0, by decide⟩).type = .delete
    ∧ (0 : Nat) < 1 :=
  ⟨by decide,
    (sortOperationsForApply_ordering
        [{ type := .add, path := "p", size := some 1, hash := some "h" },
          { type := .delete, path := "p" }]).2
      "p" 0 1 (by decide) (by decide) (by decide) (by decide)
      (Or.inl (by decide)) (by decide)⟩

/-- C10: `sortOperationsForApply` returns a permutation of its input — same
operations, none dropped, none duplicated.  The input list itself is a value
in the pure embedding, so sorting a copy cannot modify it. -/
theorem sortOperationsForApply_perm (ops : List FileOperation) :
    (sortOperationsForApply ops).Perm ops := by
  rw [sort_eq_buckets]
  exact sortSpec_perm_self ops

/-! ### Partial-failure apply -/

/-- An operation whose attempt throws: only add/modify can fail, and only by
a missing archive payload (delete and rename are total in `applyOperation`). -/
def opFails (zip : Archive) (op : FileOperation) : Bool :=
  (op.type == .add || op.type == .modify) && (getFileFromArchive zip op.path).isNone

theorem applyOperation_fails (zip : Archive) (fs : FS) (dir : String)
    (op : FileOperation) (h : opFails zip op = true) :
    applyOperation zip fs dir op = .error ("File not found in archive: " ++ op.path) := by
  have h' : (op.type = .add ∨ op.type = .modify) ∧ getFileFromArchive zip op.path = none := by
    simpa [opFails, Option.isNone_iff_eq_none] using h
  rcases h' with ⟨hty | hty, hc⟩ <;> simp [applyOperation, hty, hc]

theorem applyOperation_succeeds (zip : Archive) (fs : FS) (dir : String)
    (op : FileOperation) (h : opFails zip op = false) :
    ∃ fs', applyOperation zip fs dir op = .ok fs' := by
  cases hty : op.type
  case add | modify =>
    cases hc : getFileFromArchive zip op.path with
    | none => simp [opFails, hty, hc] at h
    | some content =>
      have he : applyOperation zip fs dir op =
          .ok (FS.writeEntry fs (dir ++ "/" ++ op.path) content) := by
        simp [applyOperation, hty, hc]
      exact ⟨_, he⟩
  case delete =>
    by_cases hex : fileExists fs (dir ++ "/" ++ op.path) = true
    · have he : applyOperation zip fs dir op =
          .ok (FS.removeEntry fs (dir ++ "/" ++ op.path)) := by
        simp [applyOperation, hty, hex]
      exact ⟨_, he⟩
    · have he : applyOperation zip fs dir op = .ok fs := by
        simp [applyOperation, hty, Bool.eq_false_iff.mpr hex]
      exact ⟨_, he⟩
  case rename =>
    by_cases ht : strTruthy op.from? = true
    · cases hc : getFileFromArchive zip op.path with
      | some content =>
        have he : applyOperation zip fs dir op =
            .ok (FS.writeEntry
              (if fileExists fs (dir ++ "/" ++ op.from?.getD "") = true then
                FS.removeEntry fs (dir ++ "/" ++ op.from?.getD "")
              else fs)
              (dir ++ "/" ++ op.path) content) := by
          simp [applyOperation, hty, ht, hc]
        exact ⟨_, he⟩
      | none =>
        cases hl : List.lookup (dir ++ "/" ++ op.from?.getD "") fs with
        | some old =>
          have he : applyOperation zip fs dir op =
              .ok (FS.writeEntry (FS.removeEntry fs (dir ++ "/" ++ op.from?.getD ""))
                (dir ++ "/" ++ op.path) old) := by
            simp [applyOperation, hty, ht, hc, hl]
          exact ⟨_, he⟩
        | none =>
          have he : applyOperation zip fs dir op = .ok fs := by
            simp [applyOperation, hty, ht, hc, hl]
          exact ⟨_, he⟩
    · have he : applyOperation zip fs dir op = .ok fs := by
        simp [applyOperation, hty, Bool.eq_false_iff.mpr ht]
      exact ⟨_, he⟩

/-- Success count and failure list of the apply loop, characterized by the
failing operations: the count is the number of non-failing operations and the
failures are exactly the failing operations, in order, each with its message. -/
theorem applyLoop_characterization (zip : Archive) (dir : String) :
    ∀ (ops : List FileOperation) (fs : FS),
      (applyLoop zip dir fs ops).2.1 = ops.length - (ops.filter (opFails zip)).length
      ∧ (applyLoop zip dir fs ops).2.2 =
          (ops.filter (opFails zip)).map
            (fun op => (op, "File not found in archive: " ++ op.path)) := by
  intro ops
  induction ops with
  | nil => intro fs; simp [applyLoop]
  | cons op rest ih =>
    intro fs
    have hfl : (rest.filter (opFails zip)).length ≤ rest.length :=
      List.length_filter_le _ _
    cases hf : opFails zip op with
    | true =>
      have herr := applyOperation_fails zip fs dir op hf
      obtain ⟨ihc, ihe⟩ := ih fs
      constructor
      · simp [applyLoop, herr, List.filter_cons, hf, ihc]
        try omega
      · simp [applyLoop, herr, List.filter_cons, hf, ihe]
    | false =>
      obtain ⟨fs', hok⟩ := applyOperation_succeeds zip fs dir op hf
      obtain ⟨ihc, ihe⟩ := ih fs'
      constructor
      · simp [applyLoop, hok, List.filter_cons, hf, ihc]
        try omega
      · simp [applyLoop, hok, List.filter_cons, hf, ihe]

/-- A list whose predicate holds exactly at position `K` filters to the
singleton of that element. -/
theorem filter_eq_singleton_of_unique {α : Type} (p : α → Bool) :
    ∀ (l : List α) (K : Nat) (hK : K < l.length),
      p (l.get ⟨K, hK⟩) = true →
      (∀ i (hi : i < l.length), i ≠ K → p (l.get ⟨i, hi⟩) = false) →
      l.filter p = [l.get ⟨K, hK⟩] := by
  intro l
  induction l with
  | nil => intro K hK; simp at hK
  | cons a t ih =>
    intro K hK hpK hothers
    cases K with
    | zero =>
      have hpa : p a = true := hpK
      have ht : t.filter p = [] := by
        rw [List.filter_eq_nil_iff]
        intro x hx
        obtain ⟨⟨n, hn⟩, rfl⟩ := List.mem_iff_get.mp hx
        have h := hothers (n + 1) (by simp; omega) (by omega)
        simpa using h
      simp [List.filter_cons, hpa, ht]
    | succ k =>
      have hpa : p a = false := hothers 0 (by simp) (by omega)
      have hk : k < t.length := by simp at hK; omega
      have hrec := ih k hk (by simpa using hpK)
        (fun i hi hne => by
          have h := hothers (i + 1) (by simp; omega) (by omega)
          simpa using h)
      simp [List.filter_cons, hpa, hrec]

/-- C3: if exactly one operation `K` (of type add or modify) lacks its
archive payload and every other operation applies cleanly (succeeds on any
filesystem state), then applying the batch attempts everything: it reports
`N − 1` successes and exactly one failure, referencing operation `K` with
its triggering error. -/
theorem executeImportApply_partial_failure
    (zip : Archive) (dir : String) (fs : FS) (ops : List FileOperation)
    (K : Nat) (hK : K < ops.length)
    (htype : (ops.get ⟨K, hK⟩).type = .add ∨ (ops.get ⟨K, hK⟩).type = .modify)
    (hmissing : getFileFromArchive zip (ops.get ⟨K, hK⟩).path = none)
    (hclean : ∀ i (hi : i < ops.length), i ≠ K →
      ∀ f : FS, ∃ f', applyOperation zip f dir (ops.get ⟨i, hi⟩) = .ok f') :
    (executeImportApply zip dir fs ops).2.1 = ops.length - 1
    ∧ (executeImportApply zip dir fs ops).2.2 =
        [(ops.get ⟨K, hK⟩, "File not found in archive: " ++ (ops.get ⟨K, hK⟩).path)] := by
  have hfK : opFails zip (ops.get ⟨K, hK⟩) = true := by
    simp only [List.get_eq_getElem] at htype hmissing
    rcases htype with h | h <;> simp [opFails, h, hmissing]
  have hcleanF : ∀ i (hi : i < ops.length), i ≠ K →
      opFails zip (ops.get ⟨i, hi⟩) = false := by
    intro i hi hne
    obtain ⟨f', hok⟩ := hclean i hi hne []
    cases hfi : opFails zip (ops.get ⟨i, hi⟩) with
    | false => rfl
    | true =>
      have herr := applyOperation_fails zip [] dir (ops.get ⟨i, hi⟩) hfi
      rw [herr] at hok
      simp at hok
  have hfilter : ops.filter (opFails zip) = [ops.get ⟨K, hK⟩] :=
    filter_eq_singleton_of_unique _ ops K hK hfK hcleanF
  have hperm : (sortOperationsForApply ops).Perm ops := by
    rw [sort_eq_buckets]; exact sortSpec_perm_self ops
  have hfilter' : (sortOperationsForApply ops).filter (opFails zip) = [ops.get ⟨K, hK⟩] := by
    have hp := hperm.filter (opFails zip)
    rw [hfilter] at hp
    exact List.perm_singleton.mp hp
  have hlen : (sortOperationsForApply ops).length = ops.length := hperm.length_eq
  obtain ⟨hcount, herrs⟩ :=
    applyLoop_characterization zip dir (sortOperationsForApply ops) fs
  constructor
  · show (applyLoop zip dir fs (sortOperationsForApply ops)).2.1 = ops.length - 1
    rw [hcount, hfilter', hlen]
    simp
  · show (applyLoop zip dir fs (sortOperationsForApply ops)).2.2 = _
    rw [herrs, hfilter']
    simp

/-- C3 witness: two adds, the second one (`K = 1`) without a payload; the
batch reports one success and exactly the one failure. -/
theorem executeImportApply_partial_failure_witness :
    getFileFromArchive [("a", "x")] "b" = none
    ∧ (executeImportApply [("a", "x")] "/t" []
          [{ type := .add, path := "a", size := some 1, hash := some "h" },
            { type := .add, path := "b", size := some 1, hash := some "h" }]).2.1 = 2 - 1
    ∧ (executeImportApply [("a", "x")] "/t" []
          [{ type := .add, path := "a", size := some 1, hash := some "h" },
            { type := .add, path := "b", size := some 1, hash := some "h" }]).2.2 =
        [({ type := .add, path := "b", size := some 1, hash := some "h" },
          "File not found in archive: " ++ "b")] := by
  refine ⟨rfl, ?_⟩
  have h := executeImportApply_partial_failure [("a", "x")] "/t" []
    [{ type := .add, path := "a", size := some 1, hash := some "h" },
      { type := .add, path := "b", size := some 1, hash := some "h" }]
    1 (by decide) (Or.inl (by decide)) (by decide)
    (by
      intro i hi hne f
      rcases i with _ | _ | i
      · exact ⟨_, rfl⟩
      · exact absurd rfl hne
      · have h2 : i + 1 + 1 < 2 := by simpa using hi
        omega)
  simpa using h

/-! ### Change Detector dedup invariant -/

/-- Invariant preserved across `detectChanges`: every emitted change's path
is claimed in `processedPaths`, and the emitted destination paths are
pairwise distinct. -/
def DetInv (st : DetectState) : Prop :=
  (∀ c ∈ st.2, c.path ∈ st.1) ∧ (st.2.map (fun c => c.path)).Nodup

theorem DetInv.push (st : DetectState) (c : DetectedChange) (hnp : c.path ∉ st.1)
    (h : DetInv st) : DetInv (c.path :: st.1, st.2 ++ [c]) := by
  obtain ⟨h1, h2⟩ := h
  constructor
  · intro c' hc'
    rcases List.mem_append.mp hc' with hold | hnew
    · exact List.mem_cons_of_mem _ (h1 c' hold)
    · simp only [List.mem_singleton] at hnew
      subst hnew
      exact List.mem_cons_self _ _
  · have hnotin : c.path ∉ st.2.map (fun d => d.path) := by
      intro hmem
      obtain ⟨c', hc', hpath⟩ := List.mem_map.mp hmem
      exact hnp (hpath ▸ h1 c' hc')
    simp [List.nodup_append, h2, hnotin]

theorem DetInv.claim (st : DetectState) (p : String) (h : DetInv st) :
    DetInv (p :: st.1, st.2) := by
  obtain ⟨h1, h2⟩ := h
  exact ⟨fun c hc => List.mem_cons_of_mem _ (h1 c hc), h2⟩

theorem addChange_inv (subs : List String) (fs : FS) (hashFn : String → String)
    (root : String) (st : DetectState) (ty : OperationType) (p : String)
    (f : Option String) (h : DetInv st) :
    DetInv (addChange subs fs hashFn root st ty p f) := by
  unfold addChange
  by_cases hm : p ∈ st.1
  · simpa [hm] using h
  · by_cases hsm : p ∈ subs
    · simpa [hm, hsm] using h
    · by_cases hd : ty = OperationType.delete
      · simpa [hm, hsm, hd] using h.push st ⟨ty, p, f, 0, none⟩ hm
      · cases hl : List.lookup (root ++ "/" ++ p) fs with
        | none => simpa [hm, hsm, hd, hl] using h.claim st p
        | some content =>
          simpa [hm, hsm, hd, hl] using
            h.push st ⟨ty, p, f, content.length, some (hashFn content)⟩ hm

theorem foldl_inv {α σ : Type} (g : σ → α → σ) (P : σ → Prop)
    (hg : ∀ s a, P s → P (g s a)) :
    ∀ (l : List α) (s : σ), P s → P (l.foldl g s) := by
  intro l
  induction l with
  | nil => intro s h; exact h
  | cons a t ih => intro s h; exact ih (g s a) (hg s a h)

/-- C6: for every status snapshot (and submodule set, working tree and hash
collaborator), the change list produced by `detectChanges` contains no two
entries with the same destination path — a path, once classified, is never
reclassified. -/
theorem detectChanges_nodup (status : StatusResult) (subs : List String) (fs : FS)
    (hashFn : String → String) (root : String) :
    ((detectChanges status subs fs hashFn root).map (fun c => c.path)).Nodup := by
  have base : DetInv ([], []) := ⟨by simp, by simp⟩
  have step1 : DetInv (status.renamed.foldl
      (fun st pr => addChange subs fs hashFn root st .rename
        (normalizePath pr.2) (some (normalizePath pr.1))) ([], [])) :=
    foldl_inv _ DetInv (fun st a h => addChange_inv subs fs hashFn root st _ _ _ h)
      status.renamed ([], []) base
  have step2 := foldl_inv
    (fun st f => addChange subs fs hashFn root st .add (normalizePath f) none) DetInv
    (fun st a h => addChange_inv subs fs hashFn root st _ _ _ h)
    status.created _ step1
  have step3 := foldl_inv
    (fun st f =>
      let p := normalizePath f
      if st.1.contains p then st
      else addChange subs fs hashFn root st .modify p none) DetInv
    (fun st a h => by
      by_cases hc : normalizePath a ∈ st.1
      · simpa [hc] using h
      · simpa [hc] using
          addChange_inv subs fs hashFn root st .modify (normalizePath a) none h)
    (status.modified ++ status.staged) _ step2
  have step4 := foldl_inv
    (fun st f => addChange subs fs hashFn root st .delete (normalizePath f) none) DetInv
    (fun st a h => addChange_inv subs fs hashFn root st _ _ _ h)
    status.deleted _ step3
  have step5 := foldl_inv
    (fun st f =>
      let p := normalizePath f
      if st.1.contains p then st
      else addChange subs fs hashFn root st .add p none) DetInv
    (fun st a h => by
      by_cases hc : normalizePath a ∈ st.1
      · simpa [hc] using h
      · simpa [hc] using
          addChange_inv subs fs hashFn root st .add (normalizePath a) none h)
    status.not_added _ step4
  exact step5.2

/-! ### Manifest round-trip -/

/-- Per-operation field-presence invariants of the manifest schema: `from` is
present iff the operation is a rename; `size` and `hash` are present iff it
is not a delete. -/
def wfOperation (op : FileOperation) : Prop :=
  (op.from?.isSome ↔ op.type = .rename)
  ∧ (op.size.isSome ↔ op.type ≠ .delete)
  ∧ (op.hash.isSome ↔ op.type ≠ .delete)

/-- A well-formed manifest: every operation satisfies the field-presence
invariants (the record fields themselves carry the schema's types). -/
def wfManifest (m : Manifest) : Prop :=
  ∀ op ∈ m.operations, wfOperation op

theorem decodeOp_encodeOp (op : FileOperation) : decodeOp (encodeOp op) = some op := by
  rcases op with ⟨ty, p, f, s, h⟩
  cases f <;> cases s <;> cases h <;> cases ty <;> rfl

theorem decodeOps_map_encodeOp (ops : List FileOperation) :
    decodeOps (ops.map encodeOp) = some ops := by
  induction ops with
  | nil => rfl
  | cons o t ih => simp [decodeOps, decodeOp_encodeOp, ih]

/-- C8 counterexample: a manifest that is well-formed per the schema (all
required fields present with the schema's types, field-presence invariants
satisfied) but with the empty string as `version` does not round-trip —
`parseManifest` treats the falsy `version` as missing and throws
`Invalid manifest format`. -/
theorem parseManifest_roundtrip_counterexample :
    wfManifest
      { version := ""
        created := "2024-01-01T00:00:00.000Z"
        source := ⟨"repo", "main", "abc1234", false⟩
        mode := .changes
        message := none
        stats := ⟨1, 0, 0, 0, 3⟩
        operations := [⟨.add, "a.txt", none, some 3, some "sha256:aaa"⟩] }
    ∧ parseManifest (serializeManifest
      { version := ""
        created := "2024-01-01T00:00:00.000Z"
        source := ⟨"repo", "main", "abc1234", false⟩
        mode := .changes
        message := none
        stats := ⟨1, 0, 0, 0, 3⟩
        operations := [⟨.add, "a.txt", none, some 3, some "sha256:aaa"⟩] }) =
      .error "Invalid manifest format" := by
  constructor
  · intro op hop
    simp only [List.mem_singleton] at hop
    subst hop
    exact ⟨by simp, by simp, by simp⟩
  · rfl

set_option maxHeartbeats 1000000 in
/-- C8, amended: parsing the serialization of a well-formed manifest whose
`version` string is nonempty (so that the JS truthiness check `!data.version`
passes) yields the manifest back unchanged. -/
theorem parseManifest_serializeManifest (m : Manifest)
    (_hwf : wfManifest m) (hv : m.version ≠ "") :
    parseManifest (serializeManifest m) = .ok m := by
  rcases m with ⟨v, cr, ⟨re, br, co, di⟩, mo, ms, ⟨a, b, c, d, e⟩, ops⟩
  simp only [ne_eq] at hv
  have hbeq : (v == "") = false := by simpa using hv
  cases mo <;> cases ms <;>
    simp [parseManifest, serializeManifest, List.lookup, jsonTruthy, modeName, parseMode,
      decodeOps_map_encodeOp, hbeq]

/-- C8 witness: a concrete well-formed manifest with nonempty version
round-trips. -/
theorem parseManifest_serializeManifest_witness :
    wfManifest
      { version := "1.0"
        created := "2024-01-01T00:00:00.000Z"
        source := ⟨"repo", "main", "abc1234", true⟩
        mode := .full
        message := some "hello"
        stats := ⟨1, 0, 0, 0, 3⟩
        operations := [⟨.add, "a.txt", none, some 3, some "sha256:aaa"⟩,
          ⟨.delete, "b.txt", none, none, none⟩] }
    ∧ ("1.0" : String) ≠ ""
    ∧ parseManifest (serializeManifest
      { version := "1.0"
        created := "2024-01-01T00:00:00.000Z"
        source := ⟨"repo", "main", "abc1234", true⟩
        mode := .full
        message := some "hello"
        stats := ⟨1, 0, 0, 0, 3⟩
        operations := [⟨.add, "a.txt", none, some 3, some "sha256:aaa"⟩,
          ⟨.delete, "b.txt", none, none, none⟩] }) =
      .ok
      { version := "1.0"
        created := "2024-01-01T00:00:00.000Z"
        source := ⟨"repo", "main", "abc1234", true⟩
        mode := .full
        message := some "hello"
        stats := ⟨1, 0, 0, 0, 3⟩
        operations := [⟨.add, "a.txt", none, some 3, some "sha256:aaa"⟩,
          ⟨.delete, "b.txt", none, none, none⟩] } := by
  refine ⟨?_, by decide, ?_⟩
  · intro op hop
    rcases List.mem_cons.mp hop with h | h
    · subst h; exact ⟨by simp, by simp, by simp⟩
    · simp only [List.mem_singleton] at h
      subst h; exact ⟨by simp, by simp, by simp⟩
  · exact parseManifest_serializeManifest _
      (by
        intro op hop
        rcases List.mem_cons.mp hop with h | h
        · subst h; exact ⟨by simp, by simp, by simp⟩
        · simp only [List.mem_singleton] at h
          subst h; exact ⟨by simp, by simp, by simp⟩)
      (by decide)

end SyncKit
